import Mathlib

set_option maxRecDepth 100000

/-!
Verification of the MementoHash consistent-hashing core of the
`loadbalance-go` repository.

The Go sources embedded here:
* `consistenthash/mementohash.go` — the `mementohash` struct with its
  `remove` / `replace` / `restore` helpers and the public `AddBucket`,
  `RemoveBucket`, `GetBucket`, `Size` operations;
* `consistenthash/jumphash.go` — the Lamping–Veach jump-hash loop;
* `hashing/hashing.go`, `hashing/crc32.go`, `hashing/md5.go` — the
  `HashFn` capability (`HashString`, `HashStringWithSeed`) over CRC32
  and MD5.

Modelling conventions:
* Go `int` (64-bit in practice, never near overflow in these
  operations) is modelled as `Int`; Go `uint64` values are modelled as
  `Nat` reduced `% 2^64` where they are produced, and the Go
  `int(uint64hash)` cast is the two's-complement reinterpretation
  `toInt64`.
* The Go `map[int]replace` is modelled as an association list with
  overwrite-on-insert (`cons` after erasing the key), which agrees with
  the Go map on lookup and on `len`.
* The hash functions are parameters of `GetBucket` (in Go they are a
  `HashFn` capability stored in the struct); concrete CRC32 and MD5
  instantiations are provided.
* The single floating-point expression of `jumpHash`
  (`int64(float64(b+1) * (float64(int64(1)<<31) / float64((key>>33)+1)))`)
  is a parameter `jf` of the embedding; theorems about the loop assume
  only the monotonicity `b < jf b key` that the IEEE-754 expression
  satisfies, and `jfExact` is an exact-arithmetic instantiation used
  for concrete evaluation.
* The two loops of `GetBucket` and the loop of `jumpHash` have no
  termination guarantee in general (and `GetBucket` can divide by
  zero), so they are modelled with explicit fuel; `GetBucketResult`
  separates normal results from the division-by-zero runtime panic and
  fuel exhaustion.  The fuel given to each loop of `GetBucket` is
  `|removed| + 1`, the bound claimed by the specification, so a normal
  result also certifies the iteration bound.
-/

/-- The `replace` struct of mementohash.go: a removed bucket, the
working-set size right after its removal (which doubles as the id that
took its slot), and the bucket removed just before it. -/
structure Replace where
  bucket : Int
  replacement : Int
  prevRemoved : Int
deriving DecidableEq, Repr

/-- Lookup in the removed-bucket table (Go map access `m.removed[b]`). -/
def lookupRemoved : List Replace → Int → Option Replace
  | [], _ => none
  | e :: t, b => if e.bucket = b then some e else lookupRemoved t b

/-- Key removal from the removed-bucket table (Go `delete(m.removed, b)`). -/
def eraseRemoved : List Replace → Int → List Replace
  | [], _ => []
  | e :: t, b => if e.bucket = b then eraseRemoved t b else e :: eraseRemoved t b

/-- The `mementohash` struct: capacity (`buckets`), last removed bucket
(`lastRemoved`) and the removed-bucket table (`removed`, most recent
first — Go uses a map, modelled as an overwrite association list). -/
structure mementohash where
  buckets : Int
  lastRemoved : Int
  removed : List Replace
deriving DecidableEq, Repr

namespace mementohash

/-- `func (m *mementohash) remove(bucket, replacement, prevRemoved int) int`:
store the entry in the table and return the bucket. -/
def remove (m : mementohash) (bucket replacement prevRemoved : Int) :
    mementohash × Int :=
  ({m with removed := ⟨bucket, replacement, prevRemoved⟩ ::
      eraseRemoved m.removed bucket}, bucket)

/-- `func (m *mementohash) replace(bucket int) int`: the stored
replacement for a removed bucket, `-1` otherwise. -/
def replace (m : mementohash) (bucket : Int) : Int :=
  match lookupRemoved m.removed bucket with
  | some r => r.replacement
  | none => -1

/-- `func (m *mementohash) restore(bucket int) int`: if the table is
empty return `bucket+1`; if the bucket is in the table delete it and
return its `prevRemoved`; otherwise return `-1`. -/
def restore (m : mementohash) (bucket : Int) : mementohash × Int :=
  if m.removed.length = 0 then (m, bucket + 1)
  else
    match lookupRemoved m.removed bucket with
    | some r => ({m with removed := eraseRemoved m.removed bucket}, r.prevRemoved)
    | none => (m, -1)

/-- `func (m *mementohash) Size() int`: working-set size. -/
def Size (m : mementohash) : Int :=
  m.buckets - m.removed.length

/-- `func (m *mementohash) AddBucket() int`. -/
def AddBucket (m : mementohash) : mementohash × Int :=
  let bucket := m.lastRemoved
  let p := m.restore bucket
  let m2 := {p.1 with lastRemoved := p.2}
  if m2.buckets ≤ bucket then ({m2 with buckets := bucket + 1}, bucket)
  else (m2, bucket)

/-- `func (m *mementohash) RemoveBucket(bucket int) int`. -/
def RemoveBucket (m : mementohash) (bucket : Int) : mementohash × Int :=
  if m.buckets ≤ bucket then (m, -1)
  else if m.removed.length = 0 ∧ bucket = m.buckets - 1 then
    ({m with lastRemoved := bucket, buckets := bucket}, bucket)
  else
    let p := m.remove bucket (m.Size - 1) m.lastRemoved
    ({p.1 with lastRemoved := p.2}, p.2)

end mementohash

/-- `NewMementoHasher`: the fresh hasher (Go zero values: `buckets = 0`,
`lastRemoved = 0`, empty map). -/
def NewMementoHasher : mementohash := ⟨0, 0, []⟩

/-- States reachable from a fresh hasher by `AddBucket` and
`RemoveBucket` of live buckets (a live bucket is in `[0, buckets)` and
not in the removed table). -/
inductive Reachable : mementohash → Prop
  | fresh : Reachable NewMementoHasher
  | add (m : mementohash) : Reachable m → Reachable m.AddBucket.1
  | remove (m : mementohash) (b : Int) : Reachable m → 0 ≤ b →
      b < m.buckets → m.replace b = -1 → Reachable (m.RemoveBucket b).1

/-! ## JumpHash -/

/-- One fuelled step of the `jumpHash` loop of jumphash.go.  The
parameter `jf b key` stands for the floating-point expression
`int64(float64(b+1) * (float64(int64(1)<<31) / float64((key>>33)+1)))`;
the 64-bit wrapping update of `key` is exact. -/
def jumpHashAux (jf : Int → Nat → Int) (n : Int) :
    Nat → Nat → Int → Int → Option Int
  | 0, _, _, _ => none
  | fuel + 1, key, b, j =>
    if j < n then
      let b2 := j
      let key2 := (key * 2862933555777941757 + 1) % 2 ^ 64
      jumpHashAux jf n fuel key2 b2 (jf b2 key2)
    else some b

/-- `func jumpHash(key uint64, numBuckets int) int` with the
floating-point step abstracted as `jf`; fuel `n+1` suffices whenever
`jf` is monotone (as the IEEE expression is). -/
def jumpHash (jf : Int → Nat → Int) (key : Nat) (n : Int) : Option Int :=
  jumpHashAux jf n (n.toNat + 1) (key % 2 ^ 64) (-1) 0

/-- Modelled from the spec: exact-arithmetic value of the jumpHash
floating-point expression `float64(b+1) * (2^31 / float64((key>>33)+1))`
truncated to an integer.  It agrees with the IEEE-754 double computation
whenever the true quotient is not within rounding distance of an
integer boundary (checked for every concrete input used below), and it
satisfies the same monotonicity `b < jfExact b key` that drives the
loop. -/
def jfExactDenom (key : Nat) : Nat :=
  (key % 2 ^ 64) >>> 33 + 1

def jfExact (b : Int) (key : Nat) : Int :=
  ((b + 1) * 2 ^ 31) / (jfExactDenom key : Int)

/-! ## GetBucket -/

/-- Go's `int(u)` reinterpretation of a `uint64` as a signed 64-bit
integer. -/
def toInt64 (h : Nat) : Int :=
  let r : Nat := h % 2 ^ 64
  if r < 2 ^ 63 then (r : Int) else (r : Int) - 2 ^ 64

/-- Result of a `GetBucket` run: a normal return value, the
division-by-zero runtime panic, or fuel exhaustion of a loop. -/
inductive GetBucketResult where
  | ok (bucket : Int)
  | divByZero
  | outOfFuel
deriving DecidableEq, Repr

/-- The inner fast-forward loop of `GetBucket`
(`for r >= replace { bucket = r; r = m.replace(bucket) }`), fuelled;
returns the final `(bucket, r)`. -/
def innerLoop (m : mementohash) (rho : Int) :
    Nat → Int → Int → Option (Int × Int)
  | 0, _, _ => none
  | fuel + 1, bucket, r =>
    if rho ≤ r then innerLoop m rho fuel r (m.replace r)
    else some (bucket, r)

/-- The outer redirection loop of `GetBucket` (`for replace >= 0`),
fuelled; `rho` is the current value of the Go variable `replace`.
`bucket = int(m.HashStringWithSeed(key, bucket)) % replace` panics in
Go when `replace` is zero. -/
def outerLoop (hashSeedFn : String → Int → Nat) (m : mementohash)
    (key : String) : Nat → Int → Int → GetBucketResult
  | 0, _, _ => .outOfFuel
  | fuel + 1, bucket, rho =>
    if 0 ≤ rho then
      if rho = 0 then .divByZero
      else
        let c := (toInt64 (hashSeedFn key bucket)).tmod rho
        match innerLoop m rho (m.removed.length + 1) c (m.replace c) with
        | none => .outOfFuel
        | some (b2, r2) => outerLoop hashSeedFn m key fuel b2 r2
    else .ok bucket

/-- `func (m *mementohash) GetBucket(key string) int`, with the hash
functions (`HashString`, `HashStringWithSeed`) and the jump-hash
floating-point step as parameters.  Each loop gets fuel
`m.removed.length + 1`, the iteration bound stated by the spec, so an
`ok` result also certifies that bound. -/
def mementohash.GetBucket (hashStrFn : String → Nat)
    (hashSeedFn : String → Int → Nat) (jf : Int → Nat → Int)
    (m : mementohash) (key : String) : GetBucketResult :=
  match jumpHash jf (hashStrFn key) m.buckets with
  | none => .outOfFuel
  | some bucket =>
    outerLoop hashSeedFn m key (m.removed.length + 1) bucket (m.replace bucket)

/-! ## Hash functions

`HashFn.HashString(input)` hashes the UTF-8 bytes of the string;
`HashFn.HashStringWithSeed(input, seed)` hashes those bytes followed by
the 8-byte big-endian encoding of `uint64(seed)` (hashing.go).  CRC32
is the IEEE polynomial zero-extended to 64 bits (crc32.go); MD5 is the
first 8 bytes of the digest read big-endian (md5.go, whose compression
function lives in Go's standard `crypto/md5`; it is reproduced here
from its RFC 1321 definition). -/

/-- UTF-8 encoding of one code point (Go `[]byte(string)` semantics). -/
def utf8Bytes (c : Nat) : List Nat :=
  if c < 0x80 then [c]
  else if c < 0x800 then [0xC0 + c / 64, 0x80 + c % 64]
  else if c < 0x10000 then [0xE0 + c / 4096, 0x80 + c / 64 % 64, 0x80 + c % 64]
  else [0xF0 + c / 262144, 0x80 + c / 4096 % 64, 0x80 + c / 64 % 64, 0x80 + c % 64]

/-- The UTF-8 bytes of a string (Go `[]byte(input)`). -/
def strBytes (s : String) : List Nat :=
  s.data.foldr (fun c acc => utf8Bytes c.toNat ++ acc) []

/-- `binary.BigEndian.PutUint64(seedBytes, uint64(seed))`. -/
def be64 (seed : Int) : List Nat :=
  let u : Nat := (Int.emod seed (2 ^ 64)).toNat
  [u / 2 ^ 56 % 256, u / 2 ^ 48 % 256, u / 2 ^ 40 % 256, u / 2 ^ 32 % 256,
   u / 2 ^ 24 % 256, u / 2 ^ 16 % 256, u / 2 ^ 8 % 256, u % 256]

/-- One bit-step of reflected CRC32 with the IEEE polynomial. -/
def crc32Round (c : Nat) : Nat :=
  if c % 2 = 1 then (c / 2) ^^^ 0xEDB88320 else c / 2

/-- Absorb one byte into the CRC32 state. -/
def crc32Byte (crc b : Nat) : Nat :=
  crc32Round (crc32Round (crc32Round (crc32Round
    (crc32Round (crc32Round (crc32Round (crc32Round (crc ^^^ b))))))))

/-- `crc32.NewIEEE` + `Write` + `Sum32`, widened to 64 bits. -/
def crc32Bytes (bs : List Nat) : Nat :=
  (bs.foldl crc32Byte 0xFFFFFFFF) ^^^ 0xFFFFFFFF

def crc32HashString (s : String) : Nat := crc32Bytes (strBytes s)

def crc32HashStringWithSeed (s : String) (seed : Int) : Nat :=
  crc32Bytes (strBytes s ++ be64 seed)

/-- The 64 MD5 round constants `floor(2^32 * |sin(i+1)|)` (RFC 1321). -/
def md5K : List Nat :=
  [3614090360, 3905402710, 606105819, 3250441966, 4118548399, 1200080426,
   2821735955, 4249261313, 1770035416, 2336552879, 4294925233, 2304563134,
   1804603682, 4254626195, 2792965006, 1236535329, 4129170786, 3225465664,
   643717713, 3921069994, 3593408605, 38016083, 3634488961, 3889429448,
   568446438, 3275163606, 4107603335, 1163531501, 2850285829, 4243563512,
   1735328473, 2368359562, 4294588738, 2272392833, 1839030562, 4259657740,
   2763975236, 1272893353, 4139469664, 3200236656, 681279174, 3936430074,
   3572445317, 76029189, 3654602809, 3873151461, 530742520, 3299628645,
   4096336452, 1126891415, 2878612391, 4237533241, 1700485571, 2399980690,
   4293915773, 2240044497, 1873313359, 4264355552, 2734768916, 1309151649,
   4149444226, 3174756917, 718787259, 3951481745]

/-- The MD5 per-round left-rotation amounts (RFC 1321). -/
def md5S : List Nat :=
  [7, 12, 17, 22, 7, 12, 17, 22, 7, 12, 17, 22, 7, 12, 17, 22,
   5, 9, 14, 20, 5, 9, 14, 20, 5, 9, 14, 20, 5, 9, 14, 20,
   4, 11, 16, 23, 4, 11, 16, 23, 4, 11, 16, 23, 4, 11, 16, 23,
   6, 10, 15, 21, 6, 10, 15, 21, 6, 10, 15, 21, 6, 10, 15, 21]

/-- 32-bit left rotation. -/
def rotl32 (x s : Nat) : Nat :=
  ((x <<< s) % 2 ^ 32) ||| (x >>> (32 - s))

/-- The MD5 mixing function and message index for round `i`. -/
def md5FG (i b c d : Nat) : Nat × Nat :=
  if i < 16 then ((b &&& c) ||| ((0xFFFFFFFF ^^^ b) &&& d), i)
  else if i < 32 then ((d &&& b) ||| ((0xFFFFFFFF ^^^ d) &&& c), (5 * i + 1) % 16)
  else if i < 48 then (b ^^^ c ^^^ d, (3 * i + 5) % 16)
  else (c ^^^ (b ||| (0xFFFFFFFF ^^^ d)), (7 * i) % 16)

/-- One MD5 round on the register quadruple `(a, b, c, d)`. -/
def md5Step (w : List Nat) (st : Nat × Nat × Nat × Nat) (i : Nat) :
    Nat × Nat × Nat × Nat :=
  let fg := md5FG i st.2.1 st.2.2.1 st.2.2.2
  let f := (fg.1 + st.1 + md5K.getD i 0 + w.getD fg.2 0) % 2 ^ 32
  (st.2.2.2, (st.2.1 + rotl32 f (md5S.getD i 0)) % 2 ^ 32, st.2.1, st.2.2.1)

/-- The MD5 compression function on one 16-word block. -/
def md5Compress (st : Nat × Nat × Nat × Nat) (w : List Nat) :
    Nat × Nat × Nat × Nat :=
  let r := (List.range 64).foldl (md5Step w) st
  ((st.1 + r.1) % 2 ^ 32, (st.2.1 + r.2.1) % 2 ^ 32,
   (st.2.2.1 + r.2.2.1) % 2 ^ 32, (st.2.2.2 + r.2.2.2) % 2 ^ 32)

/-- MD5 padding: `0x80`, zeros to 56 mod 64, then the bit length as a
little-endian 64-bit value. -/
def md5Pad (msg : List Nat) : List Nat :=
  let n := msg.length
  let z := (56 + 64 - (n + 1) % 64) % 64
  let bits := (8 * n) % 2 ^ 64
  msg ++ (0x80 :: List.replicate z 0) ++
    [bits % 256, bits / 2 ^ 8 % 256, bits / 2 ^ 16 % 256, bits / 2 ^ 24 % 256,
     bits / 2 ^ 32 % 256, bits / 2 ^ 40 % 256, bits / 2 ^ 48 % 256,
     bits / 2 ^ 56 % 256]

/-- The 16 little-endian 32-bit words of one 64-byte block. -/
def md5Words (block : List Nat) : List Nat :=
  (List.range 16).map (fun i =>
    block.getD (4 * i) 0 + block.getD (4 * i + 1) 0 * 256 +
      block.getD (4 * i + 2) 0 * 65536 + block.getD (4 * i + 3) 0 * 16777216)

/-- The full MD5 digest (16 bytes, little-endian registers). -/
def md5Digest (msg : List Nat) : List Nat :=
  let p := md5Pad msg
  let st := (List.range (p.length / 64)).foldl
    (fun st i => md5Compress st (md5Words ((p.drop (64 * i)).take 64)))
    (0x67452301, 0xefcdab89, 0x98badcfe, 0x10325476)
  let le32 := fun (x : Nat) =>
    [x % 256, x / 256 % 256, x / 65536 % 256, x / 16777216 % 256]
  le32 st.1 ++ le32 st.2.1 ++ le32 st.2.2.1 ++ le32 st.2.2.2

/-- `binary.BigEndian.Uint64(sum[:8])`. -/
def first8BE (bs : List Nat) : Nat :=
  (bs.take 8).foldl (fun acc b => acc * 256 + b) 0

def md5Hash64 (bs : List Nat) : Nat := first8BE (md5Digest bs)

def md5HashString (s : String) : Nat := md5Hash64 (strBytes s)

def md5HashStringWithSeed (s : String) (seed : Int) : Nat :=
  md5Hash64 (strBytes s ++ be64 seed)

-- Hash sanity checks against reference implementations.
example : crc32HashString "a" = 3904355907 := by decide
example : crc32HashStringWithSeed "a" 0 = 2903605577 := by decide
example : md5HashString "e" = 16241976521750615543 := by decide
example : md5HashStringWithSeed "e" 0 = 15920472546542087351 := by decide

-- Model sanity checks on concrete runs (mirrors the Go test scenarios).
example : NewMementoHasher.AddBucket = (⟨1, 1, []⟩, 0) := by decide
example :
    ((NewMementoHasher.AddBucket.1.AddBucket).1.RemoveBucket 0).1 =
      ⟨2, 0, [⟨0, 1, 2⟩]⟩ := by decide

/-- `fresh → AddBucket ×3 → RemoveBucket 0`: capacity 3, bucket 0
removed with replacement 2 (the working-set size after the removal). -/
def mhRemovedZero : mementohash :=
  (((NewMementoHasher.AddBucket.1.AddBucket).1.AddBucket).1.RemoveBucket 0).1

/-- `fresh → AddBucket ×2 → RemoveBucket 0 → RemoveBucket 1`: capacity
2 with an empty working set; the top removal entry stores
replacement 0. -/
def mhEmptyWorkingSet : mementohash :=
  (((NewMementoHasher.AddBucket.1.AddBucket).1.RemoveBucket 0).1.RemoveBucket 1).1

/-- `fresh → AddBucket ×3 → RemoveBucket 1`: capacity 3, bucket 1
removed. -/
def mhRemovedOne : mementohash :=
  (((NewMementoHasher.AddBucket.1.AddBucket).1.AddBucket).1.RemoveBucket 1).1

example : mhRemovedZero = ⟨3, 0, [⟨0, 2, 3⟩]⟩ := by decide
example : mhEmptyWorkingSet = ⟨2, 1, [⟨1, 0, 0⟩, ⟨0, 1, 2⟩]⟩ := by decide
example :
    mementohash.GetBucket md5HashString md5HashStringWithSeed jfExact
      mhRemovedZero "e" = .ok (-1) := by decide
example :
    mementohash.GetBucket crc32HashString crc32HashStringWithSeed jfExact
      mhEmptyWorkingSet "a" = .divByZero := by decide
example :
    mementohash.GetBucket crc32HashString crc32HashStringWithSeed jfExact
      mhRemovedOne "a" = .ok 2 := by decide

/-! ### Bounds on the concrete hash functions -/

theorem char_toNat_lt (c : Char) : c.toNat < 1114112 := by
  rcases c.valid with h | h
  · show c.val.toNat < 1114112
    omega
  · show c.val.toNat < 1114112
    omega

theorem utf8Bytes_lt {c : Nat} (hc : c < 1114112) :
    ∀ b ∈ utf8Bytes c, b < 256 := by
  intro b hb
  rw [utf8Bytes] at hb
  by_cases h1 : c < 0x80
  · simp [h1] at hb
    omega
  · by_cases h2 : c < 0x800
    · simp [h1, h2] at hb
      have hd : c / 64 ≤ 0x7FF / 64 := Nat.div_le_div_right (by omega)
      have hm : c % 64 < 64 := Nat.mod_lt _ (by norm_num)
      norm_num at hd
      rcases hb with rfl | rfl <;> omega
    · by_cases h3 : c < 0x10000
      · simp [h1, h2, h3] at hb
        have hd : c / 4096 ≤ 0xFFFF / 4096 := Nat.div_le_div_right (by omega)
        have hm1 : c / 64 % 64 < 64 := Nat.mod_lt _ (by norm_num)
        have hm2 : c % 64 < 64 := Nat.mod_lt _ (by norm_num)
        norm_num at hd
        rcases hb with rfl | rfl | rfl <;> omega
      · simp [h1, h2, h3] at hb
        have hd : c / 262144 ≤ 1114111 / 262144 := Nat.div_le_div_right (by omega)
        have hm1 : c / 4096 % 64 < 64 := Nat.mod_lt _ (by norm_num)
        have hm2 : c / 64 % 64 < 64 := Nat.mod_lt _ (by norm_num)
        have hm3 : c % 64 < 64 := Nat.mod_lt _ (by norm_num)
        norm_num at hd
        rcases hb with rfl | rfl | rfl | rfl <;> omega

theorem strBytes_lt (s : String) : ∀ b ∈ strBytes s, b < 256 := by
  rw [strBytes]
  induction s.data with
  | nil => simp
  | cons c cs ih =>
    intro b hb
    simp only [List.foldr_cons] at hb
    rcases List.mem_append.1 hb with h | h
    · exact utf8Bytes_lt (char_toNat_lt c) b h
    · exact ih b h

theorem be64_lt (seed : Int) : ∀ b ∈ be64 seed, b < 256 := by
  intro b hb
  rw [be64] at hb
  simp only [List.mem_cons, List.mem_singleton, List.not_mem_nil, or_false] at hb
  rcases hb with rfl | rfl | rfl | rfl | rfl | rfl | rfl | rfl <;>
    exact Nat.mod_lt _ (by norm_num)

theorem crc32Round_lt {c : Nat} (h : c < 2 ^ 32) : crc32Round c < 2 ^ 32 := by
  rw [crc32Round]
  by_cases h2 : c % 2 = 1
  · rw [if_pos h2]
    exact Nat.xor_lt_two_pow (by omega) (by norm_num)
  · rw [if_neg h2]
    omega

theorem crc32Byte_lt {crc b : Nat} (hc : crc < 2 ^ 32) (hb : b < 2 ^ 32) :
    crc32Byte crc b < 2 ^ 32 := by
  rw [crc32Byte]
  exact crc32Round_lt (crc32Round_lt (crc32Round_lt (crc32Round_lt
    (crc32Round_lt (crc32Round_lt (crc32Round_lt (crc32Round_lt
      (Nat.xor_lt_two_pow hc hb))))))))

theorem crc32_foldl_lt : ∀ (bs : List Nat) (acc : Nat), acc < 2 ^ 32 →
    (∀ x ∈ bs, x < 2 ^ 32) → bs.foldl crc32Byte acc < 2 ^ 32 := by
  intro bs
  induction bs with
  | nil => intro acc h _; simpa using h
  | cons x t ih =>
    intro acc hacc hmem
    rw [List.foldl_cons]
    exact ih _ (crc32Byte_lt hacc (hmem x (by simp)))
      (fun y hy => hmem y (by simp [hy]))

theorem crc32Bytes_lt (bs : List Nat) (h : ∀ x ∈ bs, x < 2 ^ 32) :
    crc32Bytes bs < 2 ^ 32 := by
  rw [crc32Bytes]
  exact Nat.xor_lt_two_pow (crc32_foldl_lt bs _ (by norm_num) h) (by norm_num)

theorem toInt64_nonneg {x : Nat} (h : x < 2 ^ 63) : 0 ≤ toInt64 x := by
  simp only [toInt64]
  rw [if_pos]
  · exact Int.natCast_nonneg _
  · have : x % 2 ^ 64 = x := Nat.mod_eq_of_lt (by omega)
    omega

/-- CRC32 digests fit in 32 bits, so Go's `int(hash)` cast never goes
negative for the CRC32 algorithm. -/
theorem crc32_seed_nonneg (key : String) :
    ∀ s : Int, 0 ≤ toInt64 (crc32HashStringWithSeed key s) := by
  intro s
  apply toInt64_nonneg
  rw [crc32HashStringWithSeed]
  have h := crc32Bytes_lt (strBytes key ++ be64 s) (by
    intro x hx
    rcases List.mem_append.1 hx with h | h
    · have := strBytes_lt key x h; omega
    · have := be64_lt s x h; omega)
  omega

/-! ## The reachable-state invariant

In every reachable state the removed table, ordered most recent first,
is a stack: the entry replacements are `Size, Size+1, Size+2, …` from
the top down, each `prevRemoved` is the bucket of the next entry (the
bottom one holding the capacity, the value `lastRemoved` had when the
table was last empty), the bucket ids are distinct ids in
`[0, buckets)`, and `lastRemoved` is the top bucket (or the capacity if
the table is empty). -/

/-- The bucket of the first entry, or the capacity for an empty list. -/
def headBucket (N : Int) : List Replace → Int
  | [] => N
  | e :: _ => e.bucket

/-- `StackOK N l w`: `l` is a well-formed removal stack for capacity
`N` and current working-set size `w`. -/
def StackOK (N : Int) : List Replace → Int → Prop
  | [], w => w = N
  | e :: t, w =>
      e.replacement = w ∧ 0 ≤ e.bucket ∧ e.bucket < N ∧
      e.prevRemoved = headBucket N t ∧ (t = [] → e.bucket ≠ N - 1) ∧
      lookupRemoved t e.bucket = none ∧ StackOK N t (w + 1)

/-- The invariant maintained by `AddBucket` and live `RemoveBucket`. -/
structure MInv (m : mementohash) : Prop where
  nonnegN : 0 ≤ m.buckets
  nonnegSize : 0 ≤ m.Size
  stack : StackOK m.buckets m.removed m.Size
  last : m.lastRemoved = headBucket m.buckets m.removed

theorem lookupRemoved_eq_none_iff {l : List Replace} {b : Int} :
    lookupRemoved l b = none ↔ ∀ e ∈ l, e.bucket ≠ b := by
  induction l with
  | nil => simp [lookupRemoved]
  | cons e t ih =>
    by_cases h : e.bucket = b <;> simp [lookupRemoved, h, ih]

theorem eraseRemoved_of_lookup_none {l : List Replace} {b : Int}
    (h : lookupRemoved l b = none) : eraseRemoved l b = l := by
  induction l with
  | nil => rfl
  | cons e t ih =>
    rw [lookupRemoved] at h
    by_cases hb : e.bucket = b
    · simp [hb] at h
    · rw [eraseRemoved, if_neg hb, ih (by simpa [hb] using h)]

theorem lookupRemoved_bucket {l : List Replace} {b : Int} {e : Replace}
    (h : lookupRemoved l b = some e) : e.bucket = b := by
  induction l with
  | nil => simp [lookupRemoved] at h
  | cons e2 t ih =>
    rw [lookupRemoved] at h
    by_cases hb : e2.bucket = b
    · simp only [if_pos hb] at h
      cases h; exact hb
    · exact ih (by simpa [hb] using h)

theorem StackOK.size_eq {N : Int} {l : List Replace} {w : Int}
    (h : StackOK N l w) : w = N - l.length := by
  induction l generalizing w with
  | nil => simpa [StackOK] using h
  | cons e t ih =>
    rw [StackOK] at h
    have := ih h.2.2.2.2.2.2
    simp only [List.length_cons]
    push_cast
    omega

theorem StackOK.lookup_bounds {N : Int} {l : List Replace} {w : Int}
    (h : StackOK N l w) {x : Int} {e : Replace}
    (hx : lookupRemoved l x = some e) :
    w ≤ e.replacement ∧ e.replacement < N ∧ 0 ≤ e.bucket ∧ e.bucket < N := by
  induction l generalizing w with
  | nil => simp [lookupRemoved] at hx
  | cons e2 t ih =>
    rw [StackOK] at h
    rw [lookupRemoved] at hx
    have hlen := h.2.2.2.2.2.2.size_eq
    by_cases hb : e2.bucket = x
    · simp only [if_pos hb] at hx
      cases hx
      refine ⟨le_of_eq h.1.symm, ?_, h.2.1, h.2.2.1⟩
      omega
    · have := ih h.2.2.2.2.2.2 (by simpa [hb] using hx)
      exact ⟨by omega, this.2⟩

theorem StackOK.repl_inj {N : Int} {l : List Replace} {w : Int}
    (h : StackOK N l w) {x y : Int} {e e2 : Replace}
    (hx : lookupRemoved l x = some e) (hy : lookupRemoved l y = some e2)
    (heq : e.replacement = e2.replacement) : x = y := by
  induction l generalizing w with
  | nil => simp [lookupRemoved] at hx
  | cons e3 t ih =>
    rw [StackOK] at h
    rw [lookupRemoved] at hx hy
    by_cases hbx : e3.bucket = x <;> by_cases hby : e3.bucket = y
    · omega
    · simp only [if_pos hbx] at hx
      cases hx
      have := h.2.2.2.2.2.2.lookup_bounds (by simpa [hby] using hy)
      omega
    · simp only [if_pos hby] at hy
      cases hy
      have := h.2.2.2.2.2.2.lookup_bounds (by simpa [hbx] using hx)
      omega
    · exact ih h.2.2.2.2.2.2 (by simpa [hbx] using hx) (by simpa [hby] using hy)

theorem StackOK.mem_bounds {N : Int} {l : List Replace} {w : Int}
    (h : StackOK N l w) {e : Replace} (he : e ∈ l) :
    0 ≤ e.bucket ∧ e.bucket < N := by
  induction l generalizing w with
  | nil => simp at he
  | cons e2 t ih =>
    rw [StackOK] at h
    rcases List.mem_cons.1 he with he2 | he2
    · subst he2; exact ⟨h.2.1, h.2.2.1⟩
    · exact ih h.2.2.2.2.2.2 he2

theorem StackOK.nodup_buckets {N : Int} {l : List Replace} {w : Int}
    (h : StackOK N l w) : (l.map Replace.bucket).Nodup := by
  induction l generalizing w with
  | nil => simp
  | cons e t ih =>
    rw [StackOK] at h
    refine List.nodup_cons.2 ⟨?_, ih h.2.2.2.2.2.2⟩
    intro hmem
    rcases List.mem_map.1 hmem with ⟨e2, he2, hb⟩
    exact (lookupRemoved_eq_none_iff.1 h.2.2.2.2.2.1) e2 he2 hb

/-! ### How the operations act on invariant states -/

theorem lookup_eq_none_of_replace_neg {m : mementohash} (h : MInv m)
    {b : Int} (hlive : m.replace b = -1) :
    lookupRemoved m.removed b = none := by
  rcases hl : lookupRemoved m.removed b with _ | e
  · rfl
  · have hb := h.stack.lookup_bounds hl
    have : m.replace b = e.replacement := by rw [mementohash.replace, hl]
    have := h.nonnegSize
    omega

theorem AddBucket_empty {m : mementohash} (hr : m.removed = [])
    (hl : m.lastRemoved = m.buckets) :
    m.AddBucket = (⟨m.buckets + 1, m.buckets + 1, []⟩, m.buckets) := by
  rw [mementohash.AddBucket, mementohash.restore]
  simp [hr, hl]

theorem AddBucket_cons {m : mementohash} {e : Replace} {t : List Replace}
    (hr : m.removed = e :: t) (hl : m.lastRemoved = e.bucket)
    (ht : lookupRemoved t e.bucket = none) (hb : e.bucket < m.buckets) :
    m.AddBucket = (⟨m.buckets, e.prevRemoved, t⟩, e.bucket) := by
  rw [mementohash.AddBucket, mementohash.restore]
  rw [hl, hr]
  simp only [List.length_cons, lookupRemoved, if_pos rfl, eraseRemoved,
    Nat.succ_ne_zero, if_false]
  rw [eraseRemoved_of_lookup_none ht]
  have : ¬ (m.buckets ≤ e.bucket) := not_le.2 hb
  simp [this]

theorem RemoveBucket_reject {m : mementohash} {b : Int}
    (hb : m.buckets ≤ b) : m.RemoveBucket b = (m, -1) := by
  rw [mementohash.RemoveBucket, if_pos hb]

theorem RemoveBucket_shortcut {m : mementohash} (hr : m.removed = []) :
    m.RemoveBucket (m.buckets - 1) =
      (⟨m.buckets - 1, m.buckets - 1, m.removed⟩, m.buckets - 1) := by
  rw [mementohash.RemoveBucket]
  rw [if_neg (by omega), if_pos (by simp [hr])]

theorem RemoveBucket_plain {m : mementohash} {b : Int}
    (hb : b < m.buckets)
    (hc : ¬(m.removed.length = 0 ∧ b = m.buckets - 1)) :
    m.RemoveBucket b =
      (⟨m.buckets, b, ⟨b, m.Size - 1, m.lastRemoved⟩ ::
          eraseRemoved m.removed b⟩, b) := by
  rw [mementohash.RemoveBucket, if_neg (by omega), if_neg hc]
  rfl

/-! ### Invariant preservation -/

theorem minv_fresh : MInv NewMementoHasher := by
  refine ⟨le_refl 0, le_refl 0, ?_, rfl⟩
  simp [NewMementoHasher, StackOK, mementohash.Size]

/-- The pigeonhole step: a live bucket exists, so the removal stack is
smaller than the capacity and the working set is non-empty. -/
theorem size_pos_of_live {m : mementohash} (h : MInv m) {b : Int}
    (hb0 : 0 ≤ b) (hbN : b < m.buckets) (hlive : m.replace b = -1) :
    1 ≤ m.Size := by
  have hnodup := h.stack.nodup_buckets
  have hnone := lookup_eq_none_of_replace_neg h hlive
  have hsub : (m.removed.map Replace.bucket).toFinset ⊆
      (Finset.Ico (0 : ℤ) m.buckets).erase b := by
    intro x hx
    rcases List.mem_map.1 (List.mem_toFinset.1 hx) with ⟨e, he, hbx⟩
    have hbounds := h.stack.mem_bounds he
    refine Finset.mem_erase.2 ⟨?_, Finset.mem_Ico.2 (by omega)⟩
    intro hxb
    exact (lookupRemoved_eq_none_iff.1 hnone) e he (by omega)
  have hcard := Finset.card_le_card hsub
  rw [List.toFinset_card_of_nodup hnodup, List.length_map] at hcard
  have herase : ((Finset.Ico (0 : ℤ) m.buckets).erase b).card =
      (Finset.Ico (0 : ℤ) m.buckets).card - 1 :=
    Finset.card_erase_of_mem (Finset.mem_Ico.2 ⟨hb0, hbN⟩)
  rw [herase, Int.card_Ico] at hcard
  have hlen : (m.removed.length : ℤ) ≤ m.buckets - 1 := by
    have : (0 : ℤ) < m.buckets := by omega
    omega
  rw [mementohash.Size]
  omega

theorem minv_add {m : mementohash} (h : MInv m) : MInv m.AddBucket.1 := by
  rcases hr : m.removed with _ | ⟨e, t⟩
  · have hl : m.lastRemoved = m.buckets := by
      have := h.last; rwa [hr] at this
    rw [AddBucket_empty hr hl]
    have hN := h.nonnegN
    refine ⟨?_, ?_, ?_, ?_⟩
    · show (0 : ℤ) ≤ m.buckets + 1
      omega
    · show (0 : ℤ) ≤ m.buckets + 1 - (([] : List Replace).length : ℤ)
      simp
      omega
    · show StackOK (m.buckets + 1) []
        (m.buckets + 1 - (([] : List Replace).length : ℤ))
      simp [StackOK]
    · rfl
  · have hst := h.stack
    rw [hr, StackOK] at hst
    have hl : m.lastRemoved = e.bucket := by
      have := h.last; rwa [hr] at this
    rw [AddBucket_cons hr hl hst.2.2.2.2.2.1 hst.2.2.1]
    have hlen : m.Size + 1 = m.buckets - (t.length : ℤ) := by
      have := h.stack.size_eq
      rw [hr] at this
      rw [mementohash.Size] at *
      simp only [List.length_cons] at this
      push_cast at this ⊢
      omega
    refine ⟨h.nonnegN, ?_, ?_, ?_⟩
    · show (0 : ℤ) ≤ m.buckets - (t.length : ℤ)
      have := h.nonnegSize
      omega
    · show StackOK m.buckets t (m.buckets - (t.length : ℤ))
      rw [← hlen]
      exact hst.2.2.2.2.2.2
    · show e.prevRemoved = headBucket m.buckets t
      exact hst.2.2.2.1

theorem minv_remove {m : mementohash} (h : MInv m) {b : Int}
    (hb0 : 0 ≤ b) (hbN : b < m.buckets) (hlive : m.replace b = -1) :
    MInv (m.RemoveBucket b).1 := by
  have hpos := size_pos_of_live h hb0 hbN hlive
  have hnone := lookup_eq_none_of_replace_neg h hlive
  have hsz := h.stack.size_eq
  rw [mementohash.Size] at hpos hsz
  by_cases hc : m.removed.length = 0 ∧ b = m.buckets - 1
  · have hr : m.removed = [] := List.length_eq_zero.1 hc.1
    rw [hc.2, RemoveBucket_shortcut hr]
    refine ⟨?_, ?_, ?_, ?_⟩
    · show (0 : ℤ) ≤ m.buckets - 1
      omega
    · show (0 : ℤ) ≤ m.buckets - 1 - (m.removed.length : ℤ)
      rw [hr]
      simp
      omega
    · show StackOK (m.buckets - 1) m.removed
        (m.buckets - 1 - (m.removed.length : ℤ))
      rw [hr]
      simp [StackOK]
    · show m.buckets - 1 = headBucket (m.buckets - 1) m.removed
      rw [hr]
      rfl
  · rw [RemoveBucket_plain hbN hc]
    rw [eraseRemoved_of_lookup_none hnone]
    refine ⟨h.nonnegN, ?_, ?_, ?_⟩
    · show (0 : ℤ) ≤ m.buckets -
        ((⟨b, m.Size - 1, m.lastRemoved⟩ :: m.removed : List Replace).length : ℤ)
      simp only [List.length_cons]
      push_cast
      omega
    · show StackOK m.buckets (⟨b, m.Size - 1, m.lastRemoved⟩ :: m.removed)
        (m.buckets -
          ((⟨b, m.Size - 1, m.lastRemoved⟩ :: m.removed : List Replace).length : ℤ))

      have hw : m.buckets -
          ((⟨b, m.Size - 1, m.lastRemoved⟩ :: m.removed : List Replace).length : ℤ) =
          m.Size - 1 := by
        simp only [List.length_cons]
        rw [mementohash.Size]
        push_cast
        omega
      rw [hw, StackOK]
      refine ⟨rfl, hb0, hbN, by exact h.last, ?_, hnone, ?_⟩
      · intro hrt hbeq
        exact hc ⟨by simp [hrt], hbeq⟩
      · have : m.Size - 1 + 1 = m.Size := by omega
        rw [this]
        exact h.stack
    · rfl

theorem RemoveBucket_snd_of_lt {m : mementohash} {b : Int}
    (hbN : b < m.buckets) : (m.RemoveBucket b).2 = b := by
  by_cases hc : m.removed.length = 0 ∧ b = m.buckets - 1
  · rw [hc.2, RemoveBucket_shortcut (List.length_eq_zero.1 hc.1)]
  · rw [RemoveBucket_plain hbN hc]

/-- Every reachable state satisfies the stack invariant. -/
theorem reachable_minv {m : mementohash} (h : Reachable m) : MInv m := by
  induction h with
  | fresh => exact minv_fresh
  | add m hm ih => exact minv_add ih
  | remove m b hm hb0 hbN hlive ih => exact minv_remove ih hb0 hbN hlive

/-! ### JumpHash: termination and range under a monotone step -/

/-- A monotone jump step: the floating-point expression
`int64(float64(b+1) * (2^31 / float64((key>>33)+1)))` always exceeds
`b` because `(key>>33)+1 ≤ 2^31`. -/
def JumpStep (jf : Int → Nat → Int) : Prop :=
  ∀ (b : Int) (k : Nat), -1 ≤ b → b < jf b k

theorem jumpHashAux_ok {jf : Int → Nat → Int} (hstep : JumpStep jf)
    (n : Int) :
    ∀ (fuel : Nat) (key : Nat) (b j : Int), -1 ≤ b → 0 ≤ j →
      (0 < n → b < n) → (0 < n → (0 ≤ b ∨ j = 0)) →
      (j < n → (n - j).toNat < fuel) → 0 < fuel →
      ∃ v, jumpHashAux jf n fuel key b j = some v ∧ (n ≤ 0 → v = b) ∧
        (0 < n → 0 ≤ v ∧ v < n) := by
  intro fuel
  induction fuel with
  | zero => intro key b j _ _ _ _ _ hf; omega
  | succ fuel ih =>
    intro key b j hb hj hbn hbj hterm _
    rw [jumpHashAux]
    by_cases hjn : j < n
    · have hn : 0 < n := by omega
      have hjf := hstep j ((key * 2862933555777941757 + 1) % 2 ^ 64) (by omega)
      have hterm2 := hterm hjn
      simp only [if_pos hjn]
      obtain ⟨v, hv, _, hv3⟩ := ih ((key * 2862933555777941757 + 1) % 2 ^ 64) j
        (jf j ((key * 2862933555777941757 + 1) % 2 ^ 64)) (by omega) (by omega)
        (fun _ => hjn) (fun _ => Or.inl hj) (fun hlt => by omega) (by omega)
      exact ⟨v, hv, fun hn0 => absurd hn (by omega), hv3⟩
    · simp only [if_neg hjn]
      refine ⟨b, rfl, fun _ => rfl, fun hn => ?_⟩
      rcases hbj hn with h0 | h0
      · exact ⟨h0, hbn hn⟩
      · omega

/-- The jump-hash loop terminates with a value in `[0, n)` for positive
`n` and with `-1` otherwise, for any monotone step. -/
theorem jumpHash_ok {jf : Int → Nat → Int} (hstep : JumpStep jf)
    (key : Nat) (n : Int) :
    ∃ v, jumpHash jf key n = some v ∧ (n ≤ 0 → v = -1) ∧
      (0 < n → 0 ≤ v ∧ v < n) := by
  rw [jumpHash]
  exact jumpHashAux_ok hstep n (n.toNat + 1) _ (-1) 0 (by omega) (by omega)
    (fun h => by omega) (fun _ => Or.inr rfl) (fun h => by omega) (by omega)

theorem jfExactDenom_pos (k : Nat) : 0 < jfExactDenom k := by
  rw [jfExactDenom]; omega

theorem jfExactDenom_le (k : Nat) : jfExactDenom k ≤ 2 ^ 31 := by
  rw [jfExactDenom]
  have h64 : k % 2 ^ 64 < 2 ^ 64 := Nat.mod_lt _ (by norm_num)
  have : (k % 2 ^ 64) >>> 33 < 2 ^ 31 := by
    rw [Nat.shiftRight_eq_div_pow]
    exact (Nat.div_lt_iff_lt_mul (by norm_num)).2 (by omega)
  omega

/-- The exact-arithmetic jump step is monotone. -/
theorem jfExact_step : JumpStep jfExact := by
  intro b k hb
  rw [jfExact]
  rcases eq_or_lt_of_le hb with hb1 | hb1
  · rw [← hb1]
    rw [show ((-1 : ℤ) + 1) * 2 ^ 31 = 0 by norm_num, Int.zero_ediv]
    norm_num
  · have hb0 : 0 ≤ b := by omega
    have hd0 : (0 : ℤ) < (jfExactDenom k : ℤ) := by
      exact_mod_cast jfExactDenom_pos k
    have hdle : ((jfExactDenom k : ℤ)) ≤ 2 ^ 31 := by
      exact_mod_cast jfExactDenom_le k
    have : b + 1 ≤ ((b + 1) * 2 ^ 31) / (jfExactDenom k : Int) := by
      rw [Int.le_ediv_iff_mul_le hd0]
      have h1 : (b + 1) * (jfExactDenom k : ℤ) ≤ (b + 1) * 2 ^ 31 :=
        Int.mul_le_mul_of_nonneg_left hdle (by omega)
      omega
    omega

/-! ### GetBucket: termination, iteration bound and range -/

/-- In an invariant state, `replace` is `-1` or a stored replacement,
which lies in `[Size, buckets)`. -/
theorem replace_cases {m : mementohash} (h : MInv m) (x : Int) :
    m.replace x = -1 ∨ (m.Size ≤ m.replace x ∧ m.replace x < m.buckets) := by
  rw [mementohash.replace]
  rcases hl : lookupRemoved m.removed x with _ | e
  · exact Or.inl rfl
  · exact Or.inr ⟨(h.stack.lookup_bounds hl).1, (h.stack.lookup_bounds hl).2.1⟩

theorem replace_eq_of_lookup {m : mementohash} {x : Int} {e : Replace}
    (hl : lookupRemoved m.removed x = some e) :
    m.replace x = e.replacement := by
  rw [mementohash.replace, hl]

theorem replace_eq_neg_of_lookup {m : mementohash} {x : Int}
    (hl : lookupRemoved m.removed x = none) : m.replace x = -1 := by
  rw [mementohash.replace, hl]

/-- Distinct removed buckets store distinct replacements. -/
theorem replace_injective {m : mementohash} (h : MInv m) {x y : Int}
    (hx : 0 ≤ m.replace x) (heq : m.replace x = m.replace y) : x = y := by
  rcases hlx : lookupRemoved m.removed x with _ | e
  · rw [replace_eq_neg_of_lookup hlx] at hx; omega
  · rcases hly : lookupRemoved m.removed y with _ | e2
    · rw [replace_eq_of_lookup hlx] at heq
      rw [replace_eq_neg_of_lookup hly] at heq
      have := (h.stack.lookup_bounds hlx).1
      have := h.nonnegSize
      omega
    · rw [replace_eq_of_lookup hlx] at heq
      rw [replace_eq_of_lookup hly] at heq
      exact h.stack.repl_inj hlx hly heq

theorem lookupRemoved_mem {l : List Replace} {b : Int} {e : Replace}
    (h : lookupRemoved l b = some e) : e ∈ l := by
  induction l with
  | nil => simp [lookupRemoved] at h
  | cons e2 t ih =>
    rw [lookupRemoved] at h
    by_cases hb : e2.bucket = b
    · simp only [if_pos hb] at h
      cases h
      exact List.mem_cons_self _ _
    · exact List.mem_cons_of_mem _ (ih (by simpa [hb] using h))

/-- The set of removed bucket ids. -/
def keyFinset (m : mementohash) : Finset Int :=
  (m.removed.map Replace.bucket).toFinset

theorem mem_keyFinset_of_replace_nonneg {m : mementohash} {x : Int}
    (hx : 0 ≤ m.replace x) : x ∈ keyFinset m := by
  rcases hl : lookupRemoved m.removed x with _ | e
  · rw [replace_eq_neg_of_lookup hl] at hx; omega
  · rw [keyFinset]
    refine List.mem_toFinset.2 (List.mem_map.2 ⟨e, lookupRemoved_mem hl, ?_⟩)
    exact lookupRemoved_bucket hl

theorem keyFinset_card {m : mementohash} (h : MInv m) :
    (keyFinset m).card = m.removed.length := by
  rw [keyFinset, List.toFinset_card_of_nodup h.stack.nodup_buckets,
    List.length_map]

/-- The inner fast-forward loop terminates within `|removed| + 1`
steps: by injectivity of the stored replacements the chain never
revisits a removed bucket, and it can only stop at the start bucket or
at a stored replacement value, which lies in `[Size, buckets)`. -/
theorem innerLoop_ok {m : mementohash} (h : MInv m) (hb : 1 ≤ m.Size)
    {rho : Int} (hrho : m.Size ≤ rho) {c0 : Int} (hc0 : c0 < rho) :
    ∀ (fuel : Nat) (V : Finset Int) (c : Int),
      (∀ v ∈ V, rho ≤ m.replace v) →
      c ∉ V →
      (c = c0 ∨ ∃ v ∈ V, m.replace v = c) →
      (∀ v ∈ V, v = c0 ∨ ∃ u ∈ V, m.replace u = v) →
      m.removed.length + 1 ≤ fuel + V.card →
      ∃ b2 r2, innerLoop m rho fuel c (m.replace c) = some (b2, r2) ∧
        r2 = m.replace b2 ∧ r2 < rho ∧
        (b2 = c0 ∨ (m.Size ≤ b2 ∧ b2 < m.buckets)) := by
  intro fuel
  induction fuel with
  | zero =>
    intro V c hV hc horig hV5 hfuel
    exfalso
    have hsub : V ⊆ keyFinset m := by
      intro v hv
      exact mem_keyFinset_of_replace_nonneg (by have := hV v hv; omega)
    have := Finset.card_le_card hsub
    rw [keyFinset_card h] at this
    omega
  | succ fuel ih =>
    intro V c hV hc horig hV5 hfuel
    rw [innerLoop]
    by_cases hge : rho ≤ m.replace c
    · have hrc : (0 : ℤ) ≤ m.replace c := by omega
      have hne_cc : m.replace c ≠ c := by
        intro heq
        rcases horig with h0 | ⟨v, hv, hveq⟩
        · omega
        · have hv0 : (0 : ℤ) ≤ m.replace v := by have := hV v hv; omega
          have hvc : v = c := replace_injective h hv0
            (show m.replace v = m.replace c by rw [hveq, heq])
          exact hc (hvc ▸ hv)
      have hnotin : m.replace c ∉ V := by
        intro hmem
        rcases hV5 (m.replace c) hmem with h0 | ⟨u, hu, hueq⟩
        · omega
        · have hu0 : (0 : ℤ) ≤ m.replace u := by have := hV u hu; omega
          have := replace_injective h hu0 hueq
          exact hc (this ▸ hu)
      rw [if_pos hge]
      refine ih (insert c V) (m.replace c) ?_ ?_ ?_ ?_ ?_
      · intro v hv
        rcases Finset.mem_insert.1 hv with rfl | hv2
        · exact hge
        · exact hV v hv2
      · intro hmem
        rcases Finset.mem_insert.1 hmem with h0 | h0
        · exact hne_cc h0
        · exact hnotin h0
      · exact Or.inr ⟨c, Finset.mem_insert_self c V, rfl⟩
      · intro v hv
        rcases Finset.mem_insert.1 hv with rfl | hv2
        · rcases horig with h0 | ⟨u, hu, hueq⟩
          · exact Or.inl h0
          · exact Or.inr ⟨u, Finset.mem_insert_of_mem hu, hueq⟩
        · rcases hV5 v hv2 with h0 | ⟨u, hu, hueq⟩
          · exact Or.inl h0
          · exact Or.inr ⟨u, Finset.mem_insert_of_mem hu, hueq⟩
      · rw [Finset.card_insert_of_not_mem hc]
        omega
    · rw [if_neg hge]
      refine ⟨c, m.replace c, rfl, rfl, by omega, ?_⟩
      rcases horig with h0 | ⟨v, hv, hveq⟩
      · exact Or.inl h0
      · right
        have h1 := hV v hv
        rcases replace_cases h v with hrc | hrc
        · omega
        · omega

/-- The outer redirection loop terminates and returns a live bucket;
the Go variable `replace` strictly decreases across iterations, so
fuel `rho - Size + 2` suffices. -/
theorem outerLoop_ok {m : mementohash} (h : MInv m) (hb : 1 ≤ m.Size)
    (hashSeedFn : String → Int → Nat) (key : String) :
    ∀ (fuel : Nat) (bucket rho : Int),
      rho = m.replace bucket →
      (0 ≤ rho → rho + 2 ≤ m.Size + fuel) →
      1 ≤ fuel →
      ∃ b2, outerLoop hashSeedFn m key fuel bucket rho = .ok b2 ∧
        m.replace b2 = -1 ∧
        (b2 = bucket ∨ b2 < m.buckets) ∧
        ((∀ s : Int, 0 ≤ toInt64 (hashSeedFn key s)) →
          (b2 = bucket ∨ (0 ≤ b2 ∧ b2 < m.buckets))) := by
  intro fuel
  induction fuel with
  | zero => intro bucket rho _ _ hf; omega
  | succ fuel ih =>
    intro bucket rho hrhoeq hfuel _
    by_cases hpos : 0 ≤ rho
    · have hbounds : m.Size ≤ rho ∧ rho < m.buckets := by
        rcases replace_cases h bucket with h0 | h0
        · omega
        · omega
      have hrho1 : 1 ≤ rho := by omega
      rw [outerLoop, if_pos hpos, if_neg (by omega)]
      have hc0lt : (toInt64 (hashSeedFn key bucket)).tmod rho < rho :=
        Int.tmod_lt_of_pos _ (by omega)
      obtain ⟨b2, r2, hinner, hr2eq, hr2lt, hchar⟩ :=
        innerLoop_ok h hb hbounds.1 hc0lt (m.removed.length + 1) ∅
          ((toInt64 (hashSeedFn key bucket)).tmod rho)
          (by simp) (by simp) (Or.inl rfl) (by simp) (by simp)
      simp only [hinner]
      obtain ⟨b3, hout, hrep3, hchar3, hchar4⟩ :=
        ih b2 r2 hr2eq (by
          intro hr2pos
          have : m.Size ≤ r2 := by
            rcases replace_cases h b2 with h0 | h0
            · omega
            · omega
          omega) (by omega)
      refine ⟨b3, hout, hrep3, ?_, ?_⟩
      · right
        rcases hchar3 with rfl | h0
        · rcases hchar with h1 | h1
          · omega
          · omega
        · exact h0
      · intro hnn
        right
        rcases hchar4 hnn with rfl | h0
        · rcases hchar with h1 | h1
          · have : (0 : ℤ) ≤ b3 := h1 ▸ Int.tmod_nonneg _ (hnn bucket)
            omega
          · omega
        · exact h0
    · rw [outerLoop, if_neg hpos]
      have hneg : m.replace bucket = -1 := by
        rcases replace_cases h bucket with h0 | h0
        · exact h0
        · omega
      exact ⟨bucket, rfl, hneg, Or.inl rfl, fun _ => Or.inl rfl⟩

theorem RemoveBucket_shortcut_at {m : mementohash} {b : Int}
    (hr : m.removed = []) (hb : b = m.buckets - 1) :
    m.RemoveBucket b =
      (⟨m.buckets - 1, m.buckets - 1, m.removed⟩, m.buckets - 1) := by
  subst hb
  exact RemoveBucket_shortcut hr

/-- `GetBucket` terminates normally (within `|removed| + 1` outer
iterations) on every invariant state with non-empty working set, and
the result is a live bucket below the capacity; it is additionally
non-negative whenever the seeded hash values fit in 63 bits (as CRC32
digests do). -/
theorem getBucket_ok {m : mementohash} (h : MInv m) (hb : 1 ≤ m.Size)
    {jf : Int → Nat → Int} (hstep : JumpStep jf)
    (hashStrFn : String → Nat) (hashSeedFn : String → Int → Nat)
    (key : String) :
    ∃ b, m.GetBucket hashStrFn hashSeedFn jf key = .ok b ∧
      m.replace b = -1 ∧ b < m.buckets ∧
      ((∀ s : Int, 0 ≤ toInt64 (hashSeedFn key s)) → 0 ≤ b) := by
  have hsz := h.stack.size_eq
  have hN : 0 < m.buckets := by
    rw [mementohash.Size] at hsz hb
    omega
  obtain ⟨v, hjump, _, hvrange⟩ := jumpHash_ok hstep (hashStrFn key) m.buckets
  have hv := hvrange hN
  rw [mementohash.GetBucket, hjump]
  obtain ⟨b2, hout, hrep2, hchar, hcharnn⟩ :=
    outerLoop_ok h hb hashSeedFn key (m.removed.length + 1) v (m.replace v)
      rfl (by
        intro hpos
        rcases replace_cases h v with h0 | h0
        · omega
        · rw [mementohash.Size] at h0 ⊢
          omega) (by omega)
  refine ⟨b2, hout, hrep2, ?_, ?_⟩
  · rcases hchar with rfl | h0
    · omega
    · exact h0
  · intro hnn
    rcases hcharnn hnn with rfl | h0
    · omega
    · omega

/-! ## The claims -/

/-- C2: for every reachable hasher state, `AddBucket` (returning `b`)
followed immediately by `RemoveBucket b` restores the whole state
`(N, R, L)` exactly. -/
theorem c2_add_remove_reversible {m : mementohash} (h : Reachable m) :
    ((m.AddBucket.1).RemoveBucket m.AddBucket.2).1 = m := by
  have minv := reachable_minv h
  obtain ⟨N, L, R⟩ := m
  rcases R with _ | ⟨e, t⟩
  · have hL : L = N := by simpa [headBucket] using minv.last
    subst hL
    rw [AddBucket_empty rfl rfl]
    rw [RemoveBucket_shortcut_at (m := ⟨L + 1, L + 1, []⟩) rfl (by norm_num)]
    simp only [mementohash.mk.injEq]
    refine ⟨by ring, by ring, trivial⟩
  · obtain ⟨eb, er, ep⟩ := e
    have hst2 : StackOK N (⟨eb, er, ep⟩ :: t)
        (mementohash.Size ⟨N, L, ⟨eb, er, ep⟩ :: t⟩) := minv.stack
    rw [StackOK] at hst2
    obtain ⟨hrepl, hb0, hbN, hprev, hbot, hlook, hstt⟩ := hst2
    have hL : L = eb := minv.last
    rw [AddBucket_cons (m := ⟨N, L, ⟨eb, er, ep⟩ :: t⟩) rfl hL hlook hbN]
    rw [RemoveBucket_plain (m := ⟨N, ep, t⟩) (show eb < N from hbN) ?hcond]
    case hcond =>
      rintro ⟨h1, h2⟩
      exact hbot (List.length_eq_zero.1 h1) h2
    have herase : eraseRemoved t eb = t := eraseRemoved_of_lookup_none hlook
    simp only [mementohash.mk.injEq, List.cons.injEq, Replace.mk.injEq,
      mementohash.Size, herase]
    refine ⟨trivial, hL.symm, ⟨trivial, ?_, trivial⟩, trivial⟩
    rw [mementohash.Size] at hrepl
    simp only [List.length_cons] at hrepl
    push_cast at hrepl ⊢
    omega

/-- C2 witness: on the fresh hasher, `AddBucket` returns `0` and
`RemoveBucket 0` restores the fresh state. -/
theorem c2_add_remove_reversible_witness :
    ((NewMementoHasher.AddBucket.1).RemoveBucket
      NewMementoHasher.AddBucket.2).1 = NewMementoHasher :=
  c2_add_remove_reversible Reachable.fresh

/-- C3 (scenario S5): from `N = 5`, removing `1` then `3` produces
exactly the table `{1 ↦ (1, 4, 5), 3 ↦ (3, 3, 1)}` with `L = 3` and
`Size = 3`; the bottom-of-stack marker (the spec's "sentinel") is the
value `lastRemoved` held while the table was empty, namely the
capacity `5`, which is not a live id.  The next `AddBucket` returns
`3`, the one after returns `1`, emptying the table with `Size = 5`. -/
theorem c3_scenario_s5 :
    NewMementoHasher.AddBucket = (⟨1, 1, []⟩, 0) ∧
    (⟨1, 1, []⟩ : mementohash).AddBucket = (⟨2, 2, []⟩, 1) ∧
    (⟨2, 2, []⟩ : mementohash).AddBucket = (⟨3, 3, []⟩, 2) ∧
    (⟨3, 3, []⟩ : mementohash).AddBucket = (⟨4, 4, []⟩, 3) ∧
    (⟨4, 4, []⟩ : mementohash).AddBucket = (⟨5, 5, []⟩, 4) ∧
    (⟨5, 5, []⟩ : mementohash).RemoveBucket 1 = (⟨5, 1, [⟨1, 4, 5⟩]⟩, 1) ∧
    (⟨5, 1, [⟨1, 4, 5⟩]⟩ : mementohash).RemoveBucket 3 =
      (⟨5, 3, [⟨3, 3, 1⟩, ⟨1, 4, 5⟩]⟩, 3) ∧
    lookupRemoved [⟨3, 3, 1⟩, ⟨1, 4, 5⟩] 1 = some ⟨1, 4, 5⟩ ∧
    lookupRemoved [⟨3, 3, 1⟩, ⟨1, 4, 5⟩] 3 = some ⟨3, 3, 1⟩ ∧
    (⟨5, 3, [⟨3, 3, 1⟩, ⟨1, 4, 5⟩]⟩ : mementohash).lastRemoved = 3 ∧
    (⟨5, 3, [⟨3, 3, 1⟩, ⟨1, 4, 5⟩]⟩ : mementohash).Size = 3 ∧
    (⟨5, 3, [⟨3, 3, 1⟩, ⟨1, 4, 5⟩]⟩ : mementohash).AddBucket =
      (⟨5, 1, [⟨1, 4, 5⟩]⟩, 3) ∧
    (⟨5, 1, [⟨1, 4, 5⟩]⟩ : mementohash).AddBucket = (⟨5, 5, []⟩, 1) ∧
    (⟨5, 5, []⟩ : mementohash).Size = 5 := by decide

/-- C5: on every reachable state with capacity 0, `GetBucket` returns
`-1` for every key and every hash function (the jump loop exits
immediately with `b = -1` and the removed table is empty). -/
theorem c5_empty_hasher {m : mementohash} (h : Reachable m)
    (hzero : m.buckets = 0) (hashStrFn : String → Nat)
    (hashSeedFn : String → Int → Nat) (jf : Int → Nat → Int)
    (key : String) :
    m.GetBucket hashStrFn hashSeedFn jf key = .ok (-1) := by
  have minv := reachable_minv h
  have hsz := minv.stack.size_eq
  have hnn := minv.nonnegSize
  rw [mementohash.Size] at hsz hnn
  have hlen : m.removed.length = 0 := by omega
  have hrm : m.removed = [] := List.length_eq_zero.1 hlen
  obtain ⟨N, L, R⟩ := m
  have hN : N = 0 := hzero
  have hR : R = [] := hrm
  subst hN
  subst hR
  rfl

/-- C5 witness: the fresh hasher rejects every lookup with `-1`. -/
theorem c5_empty_hasher_witness :
    NewMementoHasher.GetBucket crc32HashString crc32HashStringWithSeed
      jfExact "anything" = .ok (-1) :=
  c5_empty_hasher Reachable.fresh rfl crc32HashString
    crc32HashStringWithSeed jfExact "anything"

/-- C6: for every state and every bucket `b ≥ N`, `RemoveBucket b`
returns `-1` and changes nothing. -/
theorem c6_unknown_bucket (m : mementohash) (b : Int)
    (hb : m.buckets ≤ b) : m.RemoveBucket b = (m, -1) :=
  RemoveBucket_reject hb

/-- C6 witness. -/
theorem c6_unknown_bucket_witness :
    (⟨2, 2, []⟩ : mementohash).RemoveBucket 5 = (⟨2, 2, []⟩, -1) :=
  c6_unknown_bucket ⟨2, 2, []⟩ 5 (by norm_num)

/-- C7: for every 64-bit key and bucket count `n`, `jumpHash` returns
a value in `[0, n)` when `n > 0` and `-1` when `n ≤ 0`, for every
monotone instantiation of the floating-point step (which the IEEE-754
expression of the source is, since `(key>>33)+1 ≤ 2^31`). -/
theorem c7_jumphash_range {jf : Int → Nat → Int} (hstep : JumpStep jf)
    (key : Nat) (n : Int) :
    ∃ b, jumpHash jf key n = some b ∧ (0 < n → 0 ≤ b ∧ b < n) ∧
      (n ≤ 0 → b = -1) := by
  obtain ⟨v, h1, h2, h3⟩ := jumpHash_ok hstep key n
  exact ⟨v, h1, h3, h2⟩

/-- C7 witness, at the exact-arithmetic step. -/
theorem c7_jumphash_range_witness :
    ∃ b, jumpHash jfExact 123456789 7 = some b ∧
      (0 < (7 : ℤ) → 0 ≤ b ∧ b < 7) ∧ ((7 : ℤ) ≤ 0 → b = -1) :=
  c7_jumphash_range jfExact_step 123456789 7

/-- C8: whenever the removed table is empty, `RemoveBucket (N-1)`
takes the tail shortcut (`L ← N-1`, `N ← N-1`, return `N-1`, table
still empty); concretely (scenario S3), four `AddBucket` calls return
`0,1,2,3`, then `RemoveBucket 3` returns `3` leaving `N = 3`, `L = 3`,
empty table, and the next `AddBucket` returns `3`, restoring the
state. -/
theorem c8_tail_remove :
    (∀ m : mementohash, m.removed = [] →
      m.RemoveBucket (m.buckets - 1) =
        (⟨m.buckets - 1, m.buckets - 1, []⟩, m.buckets - 1)) ∧
    (NewMementoHasher.AddBucket = (⟨1, 1, []⟩, 0) ∧
     (⟨1, 1, []⟩ : mementohash).AddBucket = (⟨2, 2, []⟩, 1) ∧
     (⟨2, 2, []⟩ : mementohash).AddBucket = (⟨3, 3, []⟩, 2) ∧
     (⟨3, 3, []⟩ : mementohash).AddBucket = (⟨4, 4, []⟩, 3) ∧
     (⟨4, 4, []⟩ : mementohash).RemoveBucket 3 = (⟨3, 3, []⟩, 3) ∧
     (⟨3, 3, []⟩ : mementohash).AddBucket = (⟨4, 4, []⟩, 3)) := by
  constructor
  · intro m hr
    rw [RemoveBucket_shortcut hr, hr]
  · decide

/-- C8 witness: the general shortcut applied at capacity 7. -/
theorem c8_tail_remove_witness :
    (⟨7, 7, []⟩ : mementohash).RemoveBucket 6 = (⟨6, 6, []⟩, 6) := by
  have h := c8_tail_remove.1 ⟨7, 7, []⟩ rfl
  norm_num at h
  exact h

/-- C9 counterexample: the claim says a negative-id removal never
returns `-1`, but `RemoveBucket (-1)` on a one-bucket hasher returns
`-1` (it is the removed id itself, indistinguishable from the error
sentinel). -/
theorem c9_negative_remove_counterexample :
    1 ≤ (⟨1, 1, []⟩ : mementohash).buckets ∧ (-1 : ℤ) < 0 ∧
    ((⟨1, 1, []⟩ : mementohash).RemoveBucket (-1)).2 = -1 := by decide

/-- C9 (amended): for every state with `N ≥ 1` and every negative `b`,
`RemoveBucket b` takes the insertion path: it returns `b` (so `-1`
comes back only for `b = -1` itself) and stores the entry
`(b, Size()-1, L)` under the negative key `b`, which therefore enters
the table through the public interface. -/
theorem c9_negative_remove (m : mementohash) (b : Int)
    (hN : 1 ≤ m.buckets) (hb : b < 0) :
    m.RemoveBucket b =
      (⟨m.buckets, b, ⟨b, m.Size - 1, m.lastRemoved⟩ ::
          eraseRemoved m.removed b⟩, b) ∧
    lookupRemoved (m.RemoveBucket b).1.removed b =
      some ⟨b, m.Size - 1, m.lastRemoved⟩ := by
  have hmain := RemoveBucket_plain (m := m) (b := b) (by omega)
    (by rintro ⟨h1, h2⟩; omega)
  refine ⟨hmain, ?_⟩
  rw [hmain]
  simp [lookupRemoved]

/-- C9 witness: removing `-2` from a one-bucket hasher inserts the
negative entry and returns `-2`. -/
theorem c9_negative_remove_witness :
    (⟨1, 1, []⟩ : mementohash).RemoveBucket (-2) =
      (⟨(⟨1, 1, []⟩ : mementohash).buckets, -2,
        ⟨-2, (⟨1, 1, []⟩ : mementohash).Size - 1,
          (⟨1, 1, []⟩ : mementohash).lastRemoved⟩ ::
          eraseRemoved (⟨1, 1, []⟩ : mementohash).removed (-2)⟩, -2) ∧
    lookupRemoved ((⟨1, 1, []⟩ : mementohash).RemoveBucket (-2)).1.removed
        (-2) =
      some ⟨-2, (⟨1, 1, []⟩ : mementohash).Size - 1,
        (⟨1, 1, []⟩ : mementohash).lastRemoved⟩ :=
  c9_negative_remove ⟨1, 1, []⟩ (-2) (by norm_num) (by norm_num)

/-- C10: in every reachable state with empty removed table the
last-removed pointer equals the capacity, so the next `AddBucket`
returns `N` and moves to capacity `N + 1` with the table still empty
(hence fresh ids are issued in order `0, 1, 2, …`). -/
theorem c10_empty_table_lastremoved {m : mementohash} (h : Reachable m)
    (hr : m.removed = []) :
    m.lastRemoved = m.buckets ∧ m.AddBucket.2 = m.buckets ∧
    m.AddBucket.1 = ⟨m.buckets + 1, m.buckets + 1, []⟩ := by
  have minv := reachable_minv h
  have hL : m.lastRemoved = m.buckets := by
    have h2 := minv.last
    rw [hr] at h2
    simpa [headBucket] using h2
  refine ⟨hL, ?_, ?_⟩ <;> rw [AddBucket_empty hr hL]

/-- C10 witness, at the fresh hasher. -/
theorem c10_empty_table_lastremoved_witness :
    NewMementoHasher.lastRemoved = NewMementoHasher.buckets ∧
    NewMementoHasher.AddBucket.2 = NewMementoHasher.buckets ∧
    NewMementoHasher.AddBucket.1 =
      ⟨NewMementoHasher.buckets + 1, NewMementoHasher.buckets + 1, []⟩ :=
  c10_empty_table_lastremoved Reachable.fresh rfl

/-- C1 counterexample: with the MD5 hash function, on the reachable
state `fresh → AddBucket ×3 → RemoveBucket 0` (working set
`{1, 2}`, non-empty) the key `"e"` returns `-1`, outside `[0, N)`:
`md5₆₄("e")` jumps to the removed bucket `0`, and the reseeded digest
`md5₆₄("e" ‖ be64(0)) = 15920472546542087351 ≥ 2^63` is odd, so Go's
signed `int` cast makes `int(hash) % 2` equal to `-1`.  (The jump step
is instantiated with the exact-arithmetic `jfExact`; for this input
the IEEE-754 computation takes the same branch, since the first
iteration already yields `j = 1244 ≥ 3`, far from the exit
boundary.) -/
theorem c1_range_md5_counterexample :
    Reachable mhRemovedZero ∧ 1 ≤ mhRemovedZero.Size ∧
    mementohash.GetBucket md5HashString md5HashStringWithSeed jfExact
      mhRemovedZero "e" = .ok (-1) ∧ ((-1 : ℤ) < 0) := by
  refine ⟨?_, by decide, by decide, by decide⟩
  exact Reachable.remove _ 0
    (Reachable.add _ (Reachable.add _ (Reachable.add _ Reachable.fresh)))
    (by decide) (by decide) (by decide)

/-- C1 (amended): with the CRC32 hash function — whose digests are
below `2^63`, so the signed cast stays non-negative — `GetBucket` on
every reachable state with non-empty working set returns a bucket in
`[0, N)` that is not a key of the removed table, for every monotone
jump step. -/
theorem c1_range_crc32 {m : mementohash} (h : Reachable m)
    (hsize : 1 ≤ m.Size) {jf : Int → Nat → Int} (hstep : JumpStep jf)
    (key : String) :
    ∃ b, m.GetBucket crc32HashString crc32HashStringWithSeed jf key =
        .ok b ∧ 0 ≤ b ∧ b < m.buckets ∧
      lookupRemoved m.removed b = none := by
  have minv := reachable_minv h
  obtain ⟨b, hok, hrep, hlt, hnn⟩ :=
    getBucket_ok minv hsize hstep crc32HashString crc32HashStringWithSeed key
  exact ⟨b, hok, hnn (crc32_seed_nonneg key), hlt,
    lookup_eq_none_of_replace_neg minv hrep⟩

/-- C1 witness: CRC32 lookup on `fresh → AddBucket ×3 →
RemoveBucket 1` with key `"a"`. -/
theorem c1_range_crc32_witness :
    ∃ b, mhRemovedOne.GetBucket crc32HashString crc32HashStringWithSeed
        jfExact "a" = .ok b ∧ 0 ≤ b ∧ b < mhRemovedOne.buckets ∧
      lookupRemoved mhRemovedOne.removed b = none :=
  c1_range_crc32
    (Reachable.remove _ 1
      (Reachable.add _ (Reachable.add _ (Reachable.add _ Reachable.fresh)))
      (by decide) (by decide) (by decide))
    (by decide) jfExact_step "a"

/-- C4 counterexample: on the reachable state `fresh → AddBucket ×2 →
RemoveBucket 0 → RemoveBucket 1` (both removals of live buckets, so
the working set is empty while `N = 2`), `GetBucket` does not
terminate normally: whichever bucket the jump lands on, the loop
reaches a replacement value `0` and Go divides by zero (a runtime
panic). -/
theorem c4_termination_counterexample :
    Reachable mhEmptyWorkingSet ∧
    mementohash.GetBucket crc32HashString crc32HashStringWithSeed jfExact
      mhEmptyWorkingSet "a" = .divByZero := by
  constructor
  · exact Reachable.remove _ 1
      (Reachable.remove _ 0
        (Reachable.add _ (Reachable.add _ Reachable.fresh))
        (by decide) (by decide) (by decide))
      (by decide) (by decide) (by decide)
  · decide

/-- C4 (amended): on every reachable state whose working set is
non-empty, `GetBucket` terminates normally for every key, every hash
function and every monotone jump step; the fuel in the definition of
`GetBucket` is exactly `|removed| + 1` for the outer loop (and for the
inner chain), so this also certifies the claimed iteration bound. -/
theorem c4_termination_nonempty {m : mementohash} (h : Reachable m)
    (hsize : 1 ≤ m.Size) {jf : Int → Nat → Int} (hstep : JumpStep jf)
    (hashStrFn : String → Nat) (hashSeedFn : String → Int → Nat)
    (key : String) :
    ∃ b, m.GetBucket hashStrFn hashSeedFn jf key = .ok b := by
  obtain ⟨b, hok, _⟩ :=
    getBucket_ok (reachable_minv h) hsize hstep hashStrFn hashSeedFn key
  exact ⟨b, hok⟩

/-- C4 witness: a single-bucket hasher with CRC32. -/
theorem c4_termination_nonempty_witness :
    ∃ b, mementohash.GetBucket crc32HashString crc32HashStringWithSeed
        jfExact NewMementoHasher.AddBucket.1 "b" = .ok b :=
  c4_termination_nonempty (Reachable.add _ Reachable.fresh) (by decide)
    jfExact_step crc32HashString crc32HashStringWithSeed "b"
